import Mathlib

/-!
# logrusx: an asynchronous logging facade over logrus

Shallow embedding of `logger.go` (package `logrusx`) and proofs about it.

* Go maps (`logrus.Fields = map[string]interface{}`) are association lists with
  pairwise distinct keys (`AList`); `m[k] = v` is `AList.insert`, a lookup is
  `AList.lookup`. Two maps are the same mapping when every key looks up the same.
* `interface{}` values are a type parameter `V`; the only value the package itself
  creates is the service name, a string, put into a `V` by `StringBox.box`.
* Maps are reference objects in Go: the body of `fillFields` runs on a store of map
  objects, so that what it writes, and where, can be stated.
* A buffered channel is the list of the requests it holds, oldest first, with its
  capacity; a send or a receive that would block in Go returns `none`.
* The logrus logger (an external library) is its output and formatter settings, the
  list of the calls made to it, and the exit code once `Entry.Fatal` has called
  `Logger.Exit`, which ends the process.
* A run of the process is a schedule: a list of events, each a completed submission
  of the producer or one iteration of the worker goroutine.
-/

namespace Logrusx

/-! ## Data model -/

/-- Go values that can be stored in an `interface{}`: strings can be boxed. -/
class StringBox (V : Type) where
  box : String → V

instance instStringBoxString : StringBox String := ⟨id⟩

/-- Struct `LogField`: a key with an arbitrary value. -/
structure LogField (V : Type) where
  Key : String
  Value : V

/-- Type `logrus.Fields`, that is `map[string]interface{}`. -/
abbrev Fields (V : Type) : Type := AList (fun _ : String => V)

/-- Struct `logRequest`: what travels over the channel. -/
structure logRequest (V : Type) where
  level : String
  msg : String
  fields : List (LogField V)

/-- Type `logrus.Level`. -/
inductive Level where
  | PanicLevel
  | FatalLevel
  | ErrorLevel
  | WarnLevel
  | InfoLevel
  | DebugLevel
  | TraceLevel
  deriving DecidableEq, Repr

/-- One call `WithFields(data).<Level>(msg)` received by the logrus logger. -/
structure Call (V : Type) where
  level : Level
  data : Fields V
  msg : String

/-- Where a logrus logger writes: the streams that `logrus.New()` and `New` name. -/
inductive Writer where
  | Stderr
  | Stdout
  deriving DecidableEq, Repr

/-- Type `logrus.JSONFormatter`, with the two fields that `New` sets; `FieldMap` maps
a default key of the output to the key that replaces it. -/
structure JSONFormatter where
  PrettyPrint : Bool
  FieldMap : List (String × String)
  deriving DecidableEq, Repr

/-- The formatters of logrus: the text formatter, which is the default, and the JSON
one. -/
inductive Formatter where
  | Text
  | JSON (f : JSONFormatter)
  deriving DecidableEq, Repr

/-- Type `logrus.Logger` as this package drives it (logrus is an external library):
the output and the formatter, the calls received so far, oldest first and as
received (before logrus filters by level, formats and writes), and the exit code once
`Logger.Exit` has run. `ExitFunc` is `os.Exit` for a logger made by `logrus.New()`,
and the package never replaces it. -/
structure LogrusLogger (V : Type) where
  Out : Writer
  Formatter : Formatter
  calls : List (Call V)
  exited : Option Nat

/-- Struct `logger`: the logrus logger, the base fields and the channel contents. -/
structure logger (V : Type) where
  logrusLogging : LogrusLogger V
  Fields : Fields V
  logChannel : List (logRequest V)

/-- Capacity of the channel made in `New`: `make(chan logRequest, 100)`. -/
def chanCap : Nat := 100

/-! ## The logrus entry points that the package calls -/

/-- Function `logrus.New()`: a logger that writes text to the standard error stream,
has received nothing and is running. -/
def LogrusLogger.New {V : Type} : LogrusLogger V :=
  ⟨Writer.Stderr, Formatter.Text, [], none⟩

/-- Method `Logger.SetOutput`. -/
def LogrusLogger.SetOutput {V : Type} (g : LogrusLogger V) (w : Writer) : LogrusLogger V :=
  ⟨w, g.Formatter, g.calls, g.exited⟩

/-- Method `Logger.SetFormatter`. -/
def LogrusLogger.SetFormatter {V : Type} (g : LogrusLogger V) (f : Logrusx.Formatter) :
    LogrusLogger V :=
  ⟨g.Out, f, g.calls, g.exited⟩

/-- Method `Entry.Log`: the entry is handed to the logger at the given level. -/
def LogrusLogger.Log {V : Type} (g : LogrusLogger V) (lv : Level) (data : Fields V)
    (msg : String) : LogrusLogger V :=
  ⟨g.Out, g.Formatter, g.calls ++ [⟨lv, data, msg⟩], g.exited⟩

/-- Method `Logger.Exit(code)`: runs `ExitFunc`, which is `os.Exit`. -/
def LogrusLogger.Exit {V : Type} (g : LogrusLogger V) (code : Nat) : LogrusLogger V :=
  ⟨g.Out, g.Formatter, g.calls, some code⟩

/-- Call `WithFields(data).Info(msg)`. -/
def LogrusLogger.Info {V : Type} (g : LogrusLogger V) (data : Fields V) (msg : String) :
    LogrusLogger V :=
  g.Log Level.InfoLevel data msg

/-- Call `WithFields(data).Debug(msg)`. -/
def LogrusLogger.Debug {V : Type} (g : LogrusLogger V) (data : Fields V) (msg : String) :
    LogrusLogger V :=
  g.Log Level.DebugLevel data msg

/-- Call `WithFields(data).Error(msg)`. -/
def LogrusLogger.Error {V : Type} (g : LogrusLogger V) (data : Fields V) (msg : String) :
    LogrusLogger V :=
  g.Log Level.ErrorLevel data msg

/-- Call `WithFields(data).Fatal(msg)`: logrus logs the entry, then calls
`Logger.Exit(1)`. -/
def LogrusLogger.Fatal {V : Type} (g : LogrusLogger V) (data : Fields V) (msg : String) :
    LogrusLogger V :=
  (g.Log Level.FatalLevel data msg).Exit 1

/-! ## Map objects in a store, and `fillFields` -/

/-- The map objects allocated so far; a map variable is an index into the list. -/
structure Store (V : Type) where
  maps : List (Fields V)

/-- The map a reference points to (a reference to nothing reads as the empty map). -/
def Store.read {V : Type} (σ : Store V) (r : Nat) : Fields V :=
  (σ.maps.get? r).getD ∅

/-- Builtin `make(logrus.Fields, n)`: a new empty map; `n` is only a capacity hint. -/
def Store.make {V : Type} (σ : Store V) (_n : Nat) : Store V × Nat :=
  (⟨σ.maps ++ [∅]⟩, σ.maps.length)

/-- Statement `m[k] = v` on the map that `r` points to. -/
def Store.assign {V : Type} (σ : Store V) (r : Nat) (k : String) (v : V) : Store V :=
  ⟨σ.maps.set r ((σ.read r).insert k v)⟩

/-- Body of `fillFields`, run on the store, with `base` the reference held in
`l.Fields`: it makes a map with `len(l.Fields)` as capacity hint, copies the base
entries into it, assigns every field in slice order and returns the new map. Go
leaves the order of `range` over a map open; here it is the order of the entries of
the association list, and every order is the entry order of some association list
for the same map. -/
def fillFieldsIn {V : Type} (σ : Store V) (base : Nat) (fields : List (LogField V)) :
    Store V × Nat :=
  let made := σ.make (σ.read base).entries.length
  let allFields := made.2
  let σ1 := (made.1.read base).entries.foldl (fun s e => s.assign allFields e.1 e.2) made.1
  let σ2 := fields.foldl (fun s field => s.assign allFields field.Key field.Value) σ1
  (σ2, allFields)

/-- Method `fillFields` as a function of the logger: the contents of the map that
the body returns when the store holds the logger's base fields. -/
def logger.fillFields {V : Type} (l : logger V) (fields : List (LogField V)) :
    Logrusx.Fields V :=
  let res := fillFieldsIn ⟨[l.Fields]⟩ 0 fields
  res.1.read res.2

/-! ## Construction, submission and the worker -/

/-- Constant `logrus.FieldKeyMsg`. -/
def FieldKeyMsg : String := "msg"

/-- Function `New`: the pair `(Logging, error)` it returns. The goroutine that it
starts with `go l.processLogQueue()` is the `work` event of a schedule. -/
def New {V : Type} [StringBox V] (serviceName : String) : Option (logger V) × Option String :=
  let fieldMap : List (String × String) := []
  let fieldMap := (FieldKeyMsg, "message") :: fieldMap
  let Logger : LogrusLogger V := LogrusLogger.New
  let Fields : Logrusx.Fields V := ∅
  let Logger := Logger.SetOutput Writer.Stdout
  let Logger := Logger.SetFormatter (Formatter.JSON ⟨false, fieldMap⟩)
  if serviceName ≠ "" then
    let Fields := Fields.insert "service" (StringBox.box serviceName)
    let logChan : List (logRequest V) := []
    (some ⟨Logger, Fields, logChan⟩, none)
  else
    (none, some "invalid service name")

/-- Method `sendToChannel`: the send completes when the channel has room and puts
the request behind the ones already there; `none` when the send blocks. -/
def logger.sendToChannel {V : Type} (l : logger V) (level : String) (msg : String)
    (fields : List (LogField V)) : Option (logger V) :=
  if l.logChannel.length < chanCap then
    some ⟨l.logrusLogging, l.Fields, l.logChannel ++ [⟨level, msg, fields⟩]⟩
  else
    none

/-- Method `Info`. -/
def logger.Info {V : Type} (l : logger V) (msg : String) (fields : List (LogField V)) :
    Option (logger V) :=
  l.sendToChannel "info" msg fields

/-- Method `Debug`. -/
def logger.Debug {V : Type} (l : logger V) (msg : String) (fields : List (LogField V)) :
    Option (logger V) :=
  l.sendToChannel "debug" msg fields

/-- Method `Error`. -/
def logger.Error {V : Type} (l : logger V) (msg : String) (fields : List (LogField V)) :
    Option (logger V) :=
  l.sendToChannel "error" msg fields

/-- Method `Fatal`. -/
def logger.Fatal {V : Type} (l : logger V) (msg : String) (fields : List (LogField V)) :
    Option (logger V) :=
  l.sendToChannel "fatal" msg fields

/-- Loop body of `processLogQueue` for a request `req` just received. -/
def logger.handle {V : Type} (l : logger V) (req : logRequest V) : logger V :=
  let allFields := l.fillFields req.fields
  if req.level = "info" then
    ⟨l.logrusLogging.Info allFields req.msg, l.Fields, l.logChannel⟩
  else if req.level = "debug" then
    ⟨l.logrusLogging.Debug allFields req.msg, l.Fields, l.logChannel⟩
  else if req.level = "error" then
    ⟨l.logrusLogging.Error allFields req.msg, l.Fields, l.logChannel⟩
  else if req.level = "fatal" then
    ⟨l.logrusLogging.Fatal allFields req.msg, l.Fields, l.logChannel⟩
  else
    l

/-- One iteration of `for req := range l.logChannel`: receive the oldest request and
handle it; `none` when the channel is empty and the receive blocks. -/
def logger.processLogQueueIter {V : Type} (l : logger V) : Option (logger V) :=
  match l.logChannel with
  | [] => none
  | req :: rest => some (logger.handle ⟨l.logrusLogging, l.Fields, rest⟩ req)

/-- At most `n` iterations of the worker loop: it stops when the process has exited
or when the receive blocks. -/
def logger.iterate {V : Type} : Nat → logger V → logger V
  | 0, l => l
  | n + 1, l =>
    if l.logrusLogging.exited.isSome then l
    else
      match l.processLogQueueIter with
      | none => l
      | some l1 => logger.iterate n l1

/-- Method `processLogQueue` with the producers at rest: the worker loop runs until
it blocks on the empty channel or the process exits. One iteration per request held
is enough. -/
def logger.processLogQueue {V : Type} (l : logger V) : logger V :=
  logger.iterate l.logChannel.length l

/-! ## Schedules -/

/-- The four methods of interface `Logging` that submit a record. -/
inductive Method where
  | Info
  | Debug
  | Error
  | Fatal
  deriving DecidableEq, Repr

/-- A call `l.<m>(msg, fields...)`. -/
def logger.invoke {V : Type} (l : logger V) (m : Method) (msg : String)
    (fields : List (LogField V)) : Option (logger V) :=
  match m with
  | Method.Info => l.Info msg fields
  | Method.Debug => l.Debug msg fields
  | Method.Error => l.Error msg fields
  | Method.Fatal => l.Fatal msg fields

/-- A submission: the method called with its arguments. -/
structure Submission (V : Type) where
  method : Method
  msg : String
  fields : List (LogField V)

/-- What happens next in the process: the producer completes a submission, or the
worker goroutine runs one iteration of its loop. -/
inductive Event (V : Type) where
  | submit (c : Submission V)
  | work

/-- One event; `none` when it cannot happen in this state (the process has exited,
the send blocks on a full channel, the receive blocks on an empty one). -/
def step {V : Type} (l : logger V) (e : Event V) : Option (logger V) :=
  if l.logrusLogging.exited.isSome then none
  else
    match e with
    | Event.submit c => l.invoke c.method c.msg c.fields
    | Event.work => l.processLogQueueIter

/-- A schedule: the events in the order they happen. -/
def exec {V : Type} (l : logger V) : List (Event V) → Option (logger V)
  | [] => some l
  | e :: es => (step l e).bind (fun l1 => exec l1 es)

/-- The submissions of a schedule, in the order they were made. -/
def submissions {V : Type} : List (Event V) → List (Submission V)
  | [] => []
  | Event.submit c :: es => c :: submissions es
  | Event.work :: es => submissions es

/-! ## Reference merge and auxiliary functions on maps -/

/-- The value of the last override in the sequence whose key is `k`, if there is one. -/
def lastOverride {V : Type} (overrides : List (LogField V)) (k : String) : Option V :=
  (overrides.reverse.find? (fun f => decide (f.Key = k))).map (fun f => f.Value)

/-- Reference merge, in the words of the specification: for key `k` the value of the
last override whose key is `k` if there is one, otherwise the base value of `k` if
the base has `k`, otherwise nothing. -/
def mergeRef {V : Type} (base : Fields V) (overrides : List (LogField V)) (k : String) :
    Option V :=
  match lastOverride overrides k with
  | some v => some v
  | none => base.lookup k

/-- The keys of the overrides. -/
def overrideKeys {V : Type} (overrides : List (LogField V)) : List String :=
  overrides.map (fun f => f.Key)

/-- Two maps are the same mapping: every key looks up the same in both. -/
def SameMapping {V : Type} (a b : Fields V) : Prop :=
  ∀ k : String, a.lookup k = b.lookup k

/-- Assigning a list of fields to a map, one after the other. -/
def assignAll {V : Type} (m : Fields V) (fs : List (LogField V)) : Fields V :=
  fs.foldl (fun acc field => acc.insert field.Key field.Value) m

/-- Copying a list of entries into a map, one after the other. -/
def copyAll {V : Type} (m : Fields V) (es : List (Sigma (fun _ : String => V))) : Fields V :=
  es.foldl (fun acc e => acc.insert e.1 e.2) m

/-! ## Submissions, expected calls and the invariant of a run -/

/-- The level tag that a method puts on its requests. -/
def Method.tag : Method → String
  | Method.Info => "info"
  | Method.Debug => "debug"
  | Method.Error => "error"
  | Method.Fatal => "fatal"

/-- The logrus level that bears the name of a method. -/
def Method.level : Method → Level
  | Method.Info => Level.InfoLevel
  | Method.Debug => Level.DebugLevel
  | Method.Error => Level.ErrorLevel
  | Method.Fatal => Level.FatalLevel

/-- The request that a submission is expected to put on the channel. -/
def Submission.request {V : Type} (c : Submission V) : logRequest V :=
  ⟨c.method.tag, c.msg, c.fields⟩

/-- The call that the logrus logger is expected to receive for a submission: the
level of the method, the base fields of `l` overlaid with the fields, the message. -/
def record {V : Type} (l : logger V) (c : Submission V) : Call V :=
  ⟨c.method.level, l.fillFields c.fields, c.msg⟩

/-- A sequence of submissions cut after its first `Fatal` one. -/
def cutAfterFatal {V : Type} : List (Submission V) → List (Submission V)
  | [] => []
  | c :: cs => if c.method = Method.Fatal then [c] else c :: cutAfterFatal cs

/-- The state `l` of a logger that started as `l0` with an empty channel, after the
submissions `subs` were made: the base fields are those of `l0`, the channel is within
its capacity, the submissions split into those handed to logrus and those still on the
channel, both in order, and the process has exited exactly when the last one handed
over was a `Fatal`, which is then the only `Fatal` handed over. -/
def RunInv {V : Type} (l0 l : logger V) (subs : List (Submission V)) : Prop :=
  l.Fields = l0.Fields ∧ l.logChannel.length ≤ chanCap ∧
    ∃ done pending : List (Submission V),
      subs = done ++ pending ∧
      l.logChannel = pending.map Submission.request ∧
      l.logrusLogging.calls = done.map (record l0) ∧
      ((l.logrusLogging.exited = none ∧ ∀ c ∈ done, c.method ≠ Method.Fatal) ∨
        (l.logrusLogging.exited = some 1 ∧
          ∃ d c, done = d ++ [c] ∧ c.method = Method.Fatal ∧ ∀ x ∈ d, x.method ≠ Method.Fatal))

/-! ## Concrete loggers and schedules -/

/-- The logrus logger as `New` sets it up: JSON lines on the standard output, the
message under the key "message". -/
def jsonLogger {V : Type} : LogrusLogger V :=
  ⟨Writer.Stdout, Formatter.JSON ⟨false, [("msg", "message")]⟩, [], none⟩

/-- The logger that `New "orders-service"` returns. -/
def ordersLogger : logger String :=
  ⟨jsonLogger, AList.insert "service" "orders-service" ∅, []⟩

/-- The logger that `New "svc"` returns. -/
def svcLogger : logger String :=
  ⟨jsonLogger, AList.insert "service" "svc" ∅, []⟩

/-- A producer submits `Fatal("a")`, then `Error("b")`, before the worker runs. -/
def fatalThenError : List (Event String) :=
  [Event.submit ⟨Method.Fatal, "a", []⟩, Event.submit ⟨Method.Error, "b", []⟩]

/-- A producer submits `Info("before")`, `Fatal("boom")` and `Info("after")`; the
worker runs once in between. -/
def infoFatalInfo : List (Event String) :=
  [Event.submit ⟨Method.Info, "before", []⟩, Event.work,
    Event.submit ⟨Method.Fatal, "boom", []⟩, Event.submit ⟨Method.Info, "after", []⟩]

/-- A producer submits `Info("before")`, `Error("mid")` and `Fatal("boom")`; the
worker runs once after the first. -/
def infoErrorFatal : List (Event String) :=
  [Event.submit ⟨Method.Info, "before", []⟩, Event.work,
    Event.submit ⟨Method.Error, "mid", []⟩, Event.submit ⟨Method.Fatal, "boom", []⟩]

/-- The state of `svcLogger` after the schedule `infoErrorFatal`. -/
def afterInfoErrorFatal : logger String :=
  ⟨⟨Writer.Stdout, Formatter.JSON ⟨false, [("msg", "message")]⟩,
      [⟨Level.InfoLevel, svcLogger.fillFields [], "before"⟩], none⟩, svcLogger.Fields,
    [⟨"error", "mid", []⟩, ⟨"fatal", "boom", []⟩]⟩

/-- A logger whose channel holds 100 requests. -/
def fullLogger : logger String :=
  ⟨jsonLogger, svcLogger.Fields, List.replicate 100 ⟨"info", "m", []⟩⟩

/-- The state of `svcLogger` after the schedule `infoFatalInfo`. -/
def afterInfoFatalInfo : logger String :=
  ⟨⟨Writer.Stdout, Formatter.JSON ⟨false, [("msg", "message")]⟩,
      [⟨Level.InfoLevel, svcLogger.fillFields [], "before"⟩], none⟩, svcLogger.Fields,
    [⟨"fatal", "boom", []⟩, ⟨"info", "after", []⟩]⟩

/-- The values that the calls received by logrus carry under the key `service`. -/
def serviceOf {V : Type} (l : logger V) : List (Option V) :=
  l.logrusLogging.calls.map (fun c => c.data.lookup "service")

/-- The calls received by logrus, as level and message. -/
def dispatched {V : Type} (l : logger V) : List (Level × String) :=
  l.logrusLogging.calls.map (fun c => (c.level, c.msg))

/-- The messages of the requests on the channel, oldest first. -/
def queued {V : Type} (l : logger V) : List String :=
  l.logChannel.map (fun r => r.msg)

/-! ## Lemmas on maps, the store and `fillFields` -/

theorem lastOverride_nil {V : Type} (k : String) :
    lastOverride ([] : List (LogField V)) k = none := rfl

theorem lastOverride_cons {V : Type} (f : LogField V) (fs : List (LogField V)) (k : String) :
    lastOverride (f :: fs) k =
      match lastOverride fs k with
      | some v => some v
      | none => if f.Key = k then some f.Value else none := by
  unfold lastOverride
  rw [List.reverse_cons, List.find?_append]
  cases h : List.find? (fun f => decide (f.Key = k)) fs.reverse with
  | some g => simp
  | none =>
    by_cases hk : f.Key = k
    · simp [List.find?, hk]
    · simp [List.find?, hk]

theorem lastOverride_append {V : Type} (xs ys : List (LogField V)) (k : String) :
    lastOverride (xs ++ ys) k =
      match lastOverride ys k with
      | some v => some v
      | none => lastOverride xs k := by
  unfold lastOverride
  rw [List.reverse_append, List.find?_append]
  cases h : List.find? (fun f => decide (f.Key = k)) ys.reverse with
  | some g => simp
  | none => simp

theorem lastOverride_eq_none_iff {V : Type} (fs : List (LogField V)) (k : String) :
    lastOverride fs k = none ↔ k ∉ overrideKeys fs := by
  induction fs with
  | nil => simp [lastOverride_nil, overrideKeys]
  | cons f fs ih =>
    rw [lastOverride_cons]
    cases h : lastOverride fs k with
    | some v =>
      have : ¬ (k ∉ overrideKeys fs) := fun hn => by
        rw [ih.mpr hn] at h; cases h
      simp only [overrideKeys, List.map_cons, List.mem_cons, not_or] at this ⊢
      constructor
      · intro hh; cases hh
      · intro hh; exact absurd hh.2 this
    | none =>
      have hn := ih.mp h
      simp only [overrideKeys, List.map_cons, List.mem_cons, not_or] at hn ⊢
      by_cases hk : f.Key = k
      · simp [hk]
      · simp only [hk, if_false, true_iff]
        exact ⟨fun e => hk e.symm, hn⟩

theorem lookup_assignAll {V : Type} (fs : List (LogField V)) (m : Fields V) (k : String) :
    (assignAll m fs).lookup k = mergeRef m fs k := by
  induction fs generalizing m with
  | nil => simp [assignAll, mergeRef, lastOverride_nil]
  | cons f fs ih =>
    have hstep : assignAll m (f :: fs) = assignAll (m.insert f.Key f.Value) fs := rfl
    rw [hstep, ih, mergeRef, mergeRef, lastOverride_cons]
    cases h : lastOverride fs k with
    | some v => rfl
    | none =>
      by_cases hk : f.Key = k
      · subst hk
        simp [AList.lookup_insert]
      · have hk2 : k ≠ f.Key := fun e => hk e.symm
        simp [hk, AList.lookup_insert_ne hk2]

theorem lookup_copyAll {V : Type} (es : List (Sigma (fun _ : String => V)))
    (hnd : es.NodupKeys) (m : Fields V) (k : String) :
    (copyAll m es).lookup k =
      match es.dlookup k with
      | some v => some v
      | none => m.lookup k := by
  induction es generalizing m with
  | nil => simp [copyAll]
  | cons e es ih =>
    have hstep : copyAll m (e :: es) = copyAll (m.insert e.1 e.2) es := rfl
    rw [List.nodupKeys_cons] at hnd
    rw [hstep, ih hnd.2]
    by_cases hk : e.1 = k
    · subst hk
      have hnone : List.dlookup e.1 es = none := List.dlookup_eq_none.mpr hnd.1
      rw [hnone, List.dlookup_cons_eq]
      simp [AList.lookup_insert]
    · have hk2 : k ≠ e.1 := fun h => hk h.symm
      rw [List.dlookup_cons_ne _ _ hk2]
      cases h : List.dlookup k es with
      | some v => rfl
      | none => simp [AList.lookup_insert_ne hk2]

theorem lookup_copyAll_empty {V : Type} (b : Fields V) (k : String) :
    (copyAll ∅ b.entries).lookup k = b.lookup k := by
  rw [lookup_copyAll b.entries b.nodupKeys]
  have hb : b.lookup k = List.dlookup k b.entries := rfl
  rw [hb]
  cases h : List.dlookup k b.entries with
  | some v => rfl
  | none => simp

theorem Store.length_assign {V : Type} (σ : Store V) (r : Nat) (k : String) (v : V) :
    (σ.assign r k v).maps.length = σ.maps.length := by
  simp [Store.assign]

theorem Store.read_assign_same {V : Type} (σ : Store V) (r : Nat) (hr : r < σ.maps.length)
    (k : String) (v : V) : (σ.assign r k v).read r = (σ.read r).insert k v := by
  simp [Store.assign, Store.read, List.getElem?_set, hr]

theorem Store.read_assign_ne {V : Type} (σ : Store V) (r r1 : Nat) (h : r1 ≠ r)
    (k : String) (v : V) : (σ.assign r k v).read r1 = σ.read r1 := by
  have h2 : r ≠ r1 := fun e => h e.symm
  simp [Store.assign, Store.read, List.getElem?_set, h2]

theorem Store.read_make_old {V : Type} (σ : Store V) (n r : Nat) (hr : r < σ.maps.length) :
    (σ.make n).1.read r = σ.read r := by
  simp [Store.make, Store.read, List.getElem?_append_left hr]

theorem Store.read_make_new {V : Type} (σ : Store V) (n : Nat) :
    (σ.make n).1.read (σ.make n).2 = ∅ := by
  simp [Store.make, Store.read]

theorem foldl_assign_fields {V : Type} (fs : List (LogField V)) (σ : Store V) (r : Nat)
    (hr : r < σ.maps.length) :
    (fs.foldl (fun s field => s.assign r field.Key field.Value) σ).maps.length
        = σ.maps.length ∧
      (fs.foldl (fun s field => s.assign r field.Key field.Value) σ).read r
        = assignAll (σ.read r) fs ∧
      ∀ r1, r1 ≠ r →
        (fs.foldl (fun s field => s.assign r field.Key field.Value) σ).read r1 = σ.read r1 := by
  induction fs generalizing σ with
  | nil => simp [assignAll]
  | cons f fs ih =>
    have hlen := Store.length_assign σ r f.Key f.Value
    have hr1 : r < (σ.assign r f.Key f.Value).maps.length := by rw [hlen]; exact hr
    obtain ⟨h1, h2, h3⟩ := ih (σ.assign r f.Key f.Value) hr1
    refine ⟨?_, ?_, ?_⟩
    · rw [List.foldl_cons, h1, hlen]
    · rw [List.foldl_cons, h2, Store.read_assign_same σ r hr]
      rfl
    · intro r1 hne
      rw [List.foldl_cons, h3 r1 hne, Store.read_assign_ne σ r r1 hne]

theorem foldl_assign_entries {V : Type} (es : List (Sigma (fun _ : String => V)))
    (σ : Store V) (r : Nat) (hr : r < σ.maps.length) :
    (es.foldl (fun s e => s.assign r e.1 e.2) σ).maps.length = σ.maps.length ∧
      (es.foldl (fun s e => s.assign r e.1 e.2) σ).read r = copyAll (σ.read r) es ∧
      ∀ r1, r1 ≠ r → (es.foldl (fun s e => s.assign r e.1 e.2) σ).read r1 = σ.read r1 := by
  induction es generalizing σ with
  | nil => simp [copyAll]
  | cons e es ih =>
    have hlen := Store.length_assign σ r e.1 e.2
    have hr1 : r < (σ.assign r e.1 e.2).maps.length := by rw [hlen]; exact hr
    obtain ⟨h1, h2, h3⟩ := ih (σ.assign r e.1 e.2) hr1
    refine ⟨?_, ?_, ?_⟩
    · rw [List.foldl_cons, h1, hlen]
    · rw [List.foldl_cons, h2, Store.read_assign_same σ r hr]
      rfl
    · intro r1 hne
      rw [List.foldl_cons, h3 r1 hne, Store.read_assign_ne σ r r1 hne]

/-- What the body of `fillFields` does to the store: it returns the next free
reference, allocates exactly one map, leaves every map that was there as it was, and
the new map holds the base entries overlaid with the fields. -/
theorem fillFieldsIn_spec {V : Type} (σ : Store V) (base : Nat) (hb : base < σ.maps.length)
    (fs : List (LogField V)) :
    (fillFieldsIn σ base fs).2 = σ.maps.length ∧
      (fillFieldsIn σ base fs).1.maps.length = σ.maps.length + 1 ∧
      (∀ r, r < σ.maps.length → (fillFieldsIn σ base fs).1.read r = σ.read r) ∧
      (fillFieldsIn σ base fs).1.read (fillFieldsIn σ base fs).2
        = assignAll (copyAll ∅ (σ.read base).entries) fs := by
  have hmk : (σ.make (σ.read base).entries.length).2 = σ.maps.length := rfl
  have hmklen : (σ.make (σ.read base).entries.length).1.maps.length = σ.maps.length + 1 := by
    simp [Store.make]
  have hfresh : σ.maps.length < (σ.make (σ.read base).entries.length).1.maps.length := by
    rw [hmklen]; exact Nat.lt_succ_self _
  have hbase := Store.read_make_old σ (σ.read base).entries.length base hb
  obtain ⟨e1, e2, e3⟩ := foldl_assign_entries (σ.read base).entries
    (σ.make (σ.read base).entries.length).1 σ.maps.length hfresh
  have hfresh2 : σ.maps.length <
      ((σ.read base).entries.foldl (fun s e => s.assign σ.maps.length e.1 e.2)
        (σ.make (σ.read base).entries.length).1).maps.length := by
    rw [e1]; exact hfresh
  obtain ⟨f1, f2, f3⟩ := foldl_assign_fields fs _ σ.maps.length hfresh2
  have hnew : (σ.make (σ.read base).entries.length).1.read σ.maps.length = ∅ :=
    Store.read_make_new σ _
  unfold fillFieldsIn
  simp only [hmk, hbase]
  refine ⟨trivial, ?_, ?_, ?_⟩
  · rw [f1, e1, hmklen]
  · intro r hr
    have hne : r ≠ σ.maps.length := Nat.ne_of_lt hr
    rw [f3 r hne, e3 r hne, Store.read_make_old σ _ r hr]
  · rw [f2, e2, hnew]

theorem fillFields_eq {V : Type} (l : logger V) (fs : List (LogField V)) :
    l.fillFields fs = assignAll (copyAll ∅ l.Fields.entries) fs := by
  have h := (fillFieldsIn_spec (⟨[l.Fields]⟩ : Store V) 0 (by simp) fs).2.2.2
  unfold logger.fillFields
  rw [h]
  rfl

theorem lookup_fillFields {V : Type} (l : logger V) (fs : List (LogField V)) (k : String) :
    (l.fillFields fs).lookup k = mergeRef l.Fields fs k := by
  rw [fillFields_eq, lookup_assignAll, mergeRef, mergeRef, lookup_copyAll_empty]

/-! ## Lemmas on runs -/

theorem invoke_eq_send {V : Type} (l : logger V) (m : Method) (msg : String)
    (fs : List (LogField V)) : l.invoke m msg fs = l.sendToChannel m.tag msg fs := by
  cases m <;> rfl

theorem handle_request {V : Type} (l : logger V) (c : Submission V) :
    l.handle c.request =
      ⟨if c.method = Method.Fatal
        then (l.logrusLogging.Log c.method.level (l.fillFields c.fields) c.msg).Exit 1
        else l.logrusLogging.Log c.method.level (l.fillFields c.fields) c.msg,
       l.Fields, l.logChannel⟩ := by
  obtain ⟨m, msg, fs⟩ := c
  cases m <;>
    simp [logger.handle, Submission.request, Method.tag, Method.level, LogrusLogger.Info,
      LogrusLogger.Debug, LogrusLogger.Error, LogrusLogger.Fatal]

theorem fillFields_congr {V : Type} (l1 l2 : logger V) (h : l1.Fields = l2.Fields)
    (fs : List (LogField V)) : l1.fillFields fs = l2.fillFields fs := by
  unfold logger.fillFields
  rw [h]

theorem record_congr {V : Type} (l1 l2 : logger V) (h : l1.Fields = l2.Fields)
    (c : Submission V) : record l1 c = record l2 c := by
  unfold record
  rw [fillFields_congr l1 l2 h]

theorem cutAfterFatal_append_of_no_fatal {V : Type} (d rest : List (Submission V))
    (hd : ∀ x ∈ d, x.method ≠ Method.Fatal) :
    cutAfterFatal (d ++ rest) = d ++ cutAfterFatal rest := by
  induction d with
  | nil => rfl
  | cons x d ih =>
    have hx : x.method ≠ Method.Fatal := hd x (List.mem_cons_self _ _)
    have hd2 : ∀ y ∈ d, y.method ≠ Method.Fatal := fun y hy => hd y (List.mem_cons_of_mem _ hy)
    simp [cutAfterFatal, hx, ih hd2]

theorem cutAfterFatal_of_no_fatal {V : Type} (d : List (Submission V))
    (hd : ∀ x ∈ d, x.method ≠ Method.Fatal) : cutAfterFatal d = d := by
  have h := cutAfterFatal_append_of_no_fatal d [] hd
  simpa [cutAfterFatal] using h

theorem cutAfterFatal_at_fatal {V : Type} (d : List (Submission V)) (c : Submission V)
    (rest : List (Submission V)) (hd : ∀ x ∈ d, x.method ≠ Method.Fatal)
    (hc : c.method = Method.Fatal) : cutAfterFatal (d ++ c :: rest) = d ++ [c] := by
  rw [cutAfterFatal_append_of_no_fatal d _ hd]
  simp [cutAfterFatal, hc]

theorem RunInv_step {V : Type} (l0 l l1 : logger V) (subs : List (Submission V))
    (e : Event V) (hinv : RunInv l0 l subs) (hstep : step l e = some l1) :
    RunInv l0 l1 (subs ++ submissions [e]) := by
  obtain ⟨g, F, q⟩ := l
  obtain ⟨hF, hcap, done, pending, hsubs, hq, hcalls, hst⟩ := hinv
  simp only at hF hcap hq hcalls hst
  unfold step at hstep
  by_cases hex : g.exited.isSome
  · simp [hex] at hstep
  · simp only [hex] at hstep
    have hnone : g.exited = none := by
      cases hg : g.exited with
      | none => rfl
      | some n => rw [hg] at hex; simp at hex
    have hdone : ∀ c ∈ done, c.method ≠ Method.Fatal := by
      rcases hst with h | h
      · exact h.2
      · rw [hnone] at h; cases h.1
    cases e with
    | submit c =>
      simp only [Bool.false_eq_true, if_false] at hstep
      rw [invoke_eq_send] at hstep
      unfold logger.sendToChannel at hstep
      by_cases hroom : q.length < chanCap
      · simp only [hroom, if_true, Option.some.injEq] at hstep
        subst hstep
        refine ⟨hF, ?_, done, pending ++ [c], ?_, ?_, hcalls, Or.inl ⟨hnone, hdone⟩⟩
        · simp only [List.length_append, List.length_singleton]
          omega
        · simp [submissions, hsubs]
        · simp [hq, Submission.request]
      · simp [hroom] at hstep
    | work =>
      simp only [Bool.false_eq_true, if_false] at hstep
      cases pending with
      | nil =>
        simp only [List.map_nil] at hq
        subst hq
        simp [logger.processLogQueueIter] at hstep
      | cons c p =>
        simp only [List.map_cons] at hq
        subst hq
        simp only [logger.processLogQueueIter, Option.some.injEq] at hstep
        rw [handle_request] at hstep
        subst hstep
        have hlen : (p.map Submission.request).length ≤ chanCap := by
          simp only [List.length_cons] at hcap
          omega
        have hrec : record (⟨g, F, p.map Submission.request⟩ : logger V) c = record l0 c :=
          record_congr _ _ hF c
        have hlog : g.Log c.method.level
            ((⟨g, F, p.map Submission.request⟩ : logger V).fillFields c.fields) c.msg
            = ⟨g.Out, g.Formatter, g.calls ++ [record l0 c], g.exited⟩ := by
          rw [← hrec]; rfl
        by_cases hc : c.method = Method.Fatal
        · refine ⟨hF, hlen, done ++ [c], p, ?_, rfl, ?_, Or.inr ⟨?_, done, c, rfl, hc, hdone⟩⟩
          · simp [submissions, hsubs]
          · simp only [hc, if_true]
            rw [← hc, hlog]
            simp [LogrusLogger.Exit, hcalls]
          · simp [hc, LogrusLogger.Exit]
        · refine ⟨hF, hlen, done ++ [c], p, ?_, rfl, ?_, Or.inl ⟨?_, ?_⟩⟩
          · simp [submissions, hsubs]
          · simp only [hc, if_false]
            rw [hlog]
            simp [hcalls]
          · simp only [hc, if_false]
            rw [hlog]
            exact hnone
          · intro x hx
            rcases List.mem_append.mp hx with h | h
            · exact hdone x h
            · rw [List.mem_singleton.mp h]; exact hc

theorem submissions_append {V : Type} (xs ys : List (Event V)) :
    submissions (xs ++ ys) = submissions xs ++ submissions ys := by
  induction xs with
  | nil => rfl
  | cons e xs ih =>
    cases e with
    | submit c => simp [submissions, ih]
    | work => simp [submissions, ih]

theorem RunInv_exec {V : Type} (l0 : logger V) (evs : List (Event V)) (l l1 : logger V)
    (subs : List (Submission V)) (hinv : RunInv l0 l subs) (hrun : exec l evs = some l1) :
    RunInv l0 l1 (subs ++ submissions evs) := by
  induction evs generalizing l subs with
  | nil =>
    simp only [exec, Option.some.injEq] at hrun
    subst hrun
    simpa [submissions] using hinv
  | cons e es ih =>
    simp only [exec] at hrun
    cases hs : step l e with
    | none => rw [hs] at hrun; simp at hrun
    | some l2 =>
      rw [hs] at hrun
      simp only [Option.some_bind] at hrun
      have h2 := RunInv_step l0 l l2 subs e hinv hs
      have h3 := ih l2 (subs ++ submissions [e]) h2 hrun
      have happ : submissions (e :: es) = submissions [e] ++ submissions es :=
        submissions_append [e] es
      rw [happ, ← List.append_assoc]
      exact h3

theorem RunInv_start {V : Type} (l0 : logger V) (hq : l0.logChannel = [])
    (hc : l0.logrusLogging.calls = []) (he : l0.logrusLogging.exited = none) :
    RunInv l0 l0 [] := by
  refine ⟨rfl, ?_, [], [], rfl, ?_, ?_, Or.inl ⟨he, ?_⟩⟩
  · rw [hq]; simp
  · rw [hq]; rfl
  · rw [hc]; rfl
  · intro c hc; cases hc

theorem New_eq_some {V : Type} [StringBox V] (s : String) (l0 : logger V)
    (h0 : New s = (some l0, none)) :
    s ≠ "" ∧ l0 = ⟨jsonLogger, AList.insert "service" (StringBox.box s) ∅, []⟩ := by
  unfold New at h0
  by_cases hs : s = ""
  · simp [hs] at h0
  · simp only [ne_eq, hs, not_false_eq_true, if_true, Prod.mk.injEq, Option.some.injEq,
      and_true] at h0
    exact ⟨hs, h0.symm⟩

theorem RunInv_New {V : Type} [StringBox V] (s : String) (l0 : logger V)
    (h0 : New s = (some l0, none)) : RunInv l0 l0 [] := by
  obtain ⟨_, rfl⟩ := New_eq_some s l0 h0
  exact RunInv_start _ rfl rfl rfl

theorem handle_Fields {V : Type} (l : logger V) (req : logRequest V) :
    (l.handle req).Fields = l.Fields := by
  unfold logger.handle
  simp only
  split_ifs <;> rfl

theorem handle_logChannel {V : Type} (l : logger V) (req : logRequest V) :
    (l.handle req).logChannel = l.logChannel := by
  unfold logger.handle
  simp only
  split_ifs <;> rfl

theorem processLogQueueIter_eq_some {V : Type} (l l1 : logger V)
    (h : l.processLogQueueIter = some l1) :
    l1.Fields = l.Fields ∧ l.logChannel.length = l1.logChannel.length + 1 ∧
      l1.logChannel = l.logChannel.tail := by
  obtain ⟨g, F, q⟩ := l
  cases q with
  | nil => simp [logger.processLogQueueIter] at h
  | cons req rest =>
    simp only [logger.processLogQueueIter, Option.some.injEq] at h
    subst h
    simp [handle_Fields, handle_logChannel]

theorem processLogQueueIter_eq_none {V : Type} (l : logger V)
    (h : l.processLogQueueIter = none) : l.logChannel = [] := by
  obtain ⟨g, F, q⟩ := l
  cases q with
  | nil => rfl
  | cons req rest => simp [logger.processLogQueueIter] at h

theorem sendToChannel_Fields {V : Type} (l l1 : logger V) (level msg : String)
    (fs : List (LogField V)) (h : l.sendToChannel level msg fs = some l1) :
    l1.Fields = l.Fields := by
  unfold logger.sendToChannel at h
  split_ifs at h
  simp only [Option.some.injEq] at h
  subst h
  rfl

theorem step_Fields {V : Type} (l l1 : logger V) (e : Event V) (h : step l e = some l1) :
    l1.Fields = l.Fields := by
  unfold step at h
  split_ifs at h
  cases e with
  | submit c =>
    simp only at h
    rw [invoke_eq_send] at h
    exact sendToChannel_Fields l l1 _ _ _ h
  | work => exact (processLogQueueIter_eq_some l l1 h).1

theorem exec_Fields {V : Type} (evs : List (Event V)) (l l1 : logger V)
    (h : exec l evs = some l1) : l1.Fields = l.Fields := by
  induction evs generalizing l with
  | nil =>
    simp only [exec, Option.some.injEq] at h
    rw [← h]
  | cons e es ih =>
    simp only [exec] at h
    cases hs : step l e with
    | none => rw [hs] at h; simp at h
    | some l2 =>
      rw [hs] at h
      simp only [Option.some_bind] at h
      rw [ih l2 h, step_Fields l l2 e hs]

theorem iterate_Fields {V : Type} (n : Nat) (l : logger V) :
    (logger.iterate n l).Fields = l.Fields := by
  induction n generalizing l with
  | zero => rfl
  | succ n ih =>
    unfold logger.iterate
    split_ifs
    · rfl
    · cases hp : l.processLogQueueIter with
      | none => rfl
      | some l1 =>
        simp only
        rw [ih l1, (processLogQueueIter_eq_some l l1 hp).1]

theorem RunInv_iterate {V : Type} (l0 : logger V) (subs : List (Submission V)) (n : Nat)
    (l : logger V) (hinv : RunInv l0 l subs) (hn : l.logChannel.length ≤ n) :
    RunInv l0 (logger.iterate n l) subs ∧
      ((logger.iterate n l).logrusLogging.exited.isSome = true ∨
        (logger.iterate n l).logChannel = []) := by
  induction n generalizing l with
  | zero =>
    refine ⟨hinv, Or.inr ?_⟩
    exact List.length_eq_zero.mp (Nat.le_zero.mp hn)
  | succ n ih =>
    unfold logger.iterate
    by_cases hex : l.logrusLogging.exited.isSome = true
    · rw [if_pos hex]
      exact ⟨hinv, Or.inl hex⟩
    · rw [if_neg hex]
      cases hp : l.processLogQueueIter with
      | none => exact ⟨hinv, Or.inr (processLogQueueIter_eq_none l hp)⟩
      | some l1 =>
        simp only
        have hs : step l Event.work = some l1 := by
          unfold step
          simp only [hex, if_false]
          exact hp
        have h1 := RunInv_step l0 l l1 subs Event.work hinv hs
        simp only [submissions, List.append_nil] at h1
        have hlen := (processLogQueueIter_eq_some l l1 hp).2.1
        exact ih l1 h1 (by omega)

theorem RunInv_processLogQueue {V : Type} (l0 l : logger V) (subs : List (Submission V))
    (hinv : RunInv l0 l subs) :
    RunInv l0 l.processLogQueue subs ∧
      (l.processLogQueue.logrusLogging.exited.isSome = true ∨
        l.processLogQueue.logChannel = []) :=
  RunInv_iterate l0 subs l.logChannel.length l hinv (Nat.le_refl _)

/-- Once the worker has stopped, it has handed over the submissions up to and with
the first `Fatal` one, and the process has exited exactly when there was one. -/
theorem RunInv_stopped {V : Type} (l0 l : logger V) (subs : List (Submission V))
    (hinv : RunInv l0 l subs)
    (hstop : l.logrusLogging.exited.isSome = true ∨ l.logChannel = []) :
    l.logrusLogging.calls = (cutAfterFatal subs).map (record l0) ∧
      ((∀ c ∈ subs, c.method ≠ Method.Fatal) → l.logrusLogging.exited = none ∧
        l.logChannel = []) ∧
      ((∃ c ∈ subs, c.method = Method.Fatal) → l.logrusLogging.exited = some 1) := by
  obtain ⟨_, _, done, pending, hsubs, hq, hcalls, hst⟩ := hinv
  rcases hst with ⟨hnone, hdone⟩ | ⟨hsome, d, c, hd, hc, hdn⟩
  · have hqnil : l.logChannel = [] := by
      rcases hstop with h | h
      · rw [hnone] at h; simp at h
      · exact h
    have hpend : pending = [] := by
      rw [hqnil] at hq
      exact List.map_eq_nil_iff.mp hq.symm
    subst hpend
    rw [List.append_nil] at hsubs
    subst hsubs
    refine ⟨?_, fun _ => ⟨hnone, hqnil⟩, ?_⟩
    · rw [cutAfterFatal_of_no_fatal subs hdone, hcalls]
    · rintro ⟨c, hc, hcf⟩
      exact absurd hcf (hdone c hc)
  · have hcut : cutAfterFatal subs = done := by
      rw [hsubs, hd, List.append_assoc]
      exact cutAfterFatal_at_fatal d c pending hdn hc
    refine ⟨?_, ?_, fun _ => hsome⟩
    · rw [hcut, hcalls]
    · intro hall
      have hmem : c ∈ subs := by
        rw [hsubs, hd]
        simp
      exact absurd hc (hall c hmem)

/-- At any moment the calls handed to logrus are a prefix of the submissions cut
after the first `Fatal` one. -/
theorem RunInv_initial_segment {V : Type} (l0 l : logger V) (subs : List (Submission V))
    (hinv : RunInv l0 l subs) :
    ∃ n, l.logrusLogging.calls = ((cutAfterFatal subs).take n).map (record l0) := by
  obtain ⟨_, _, done, pending, hsubs, hq, hcalls, hst⟩ := hinv
  refine ⟨done.length, ?_⟩
  rcases hst with ⟨hnone, hdone⟩ | ⟨hsome, d, c, hd, hc, hdn⟩
  · rw [hsubs, cutAfterFatal_append_of_no_fatal done pending hdone, List.take_left, hcalls]
  · have hcut : cutAfterFatal subs = done := by
      rw [hsubs, hd, List.append_assoc]
      exact cutAfterFatal_at_fatal d c pending hdn hc
    rw [hcut, List.take_length, hcalls]

theorem cutAfterFatal_of_no_fatal_before_last {V : Type} (subs : List (Submission V))
    (h : ∀ c ∈ subs.dropLast, c.method ≠ Method.Fatal) : cutAfterFatal subs = subs := by
  rcases List.eq_nil_or_concat subs with rfl | ⟨d, c, rfl⟩
  · rfl
  · rw [List.concat_eq_append] at h ⊢
    rw [List.dropLast_concat] at h
    rw [cutAfterFatal_append_of_no_fatal d [c] h]
    by_cases hc : c.method = Method.Fatal <;> simp [cutAfterFatal, hc]

theorem serviceOf_handle {V : Type} (l : logger V) (c : Submission V) :
    serviceOf (l.handle c.request)
      = serviceOf l ++ [(l.fillFields c.fields).lookup "service"] := by
  rw [handle_request]
  by_cases hm : c.method = Method.Fatal
  · simp [hm, serviceOf, LogrusLogger.Log, LogrusLogger.Exit]
  · simp [hm, serviceOf, LogrusLogger.Log]

/-- Two maps that are the same mapping hold the same entries, up to their order. -/
theorem SameMapping.perm {V : Type} {a b : Fields V} (h : SameMapping a b) :
    a.entries.Perm b.entries := by
  refine List.lookup_ext a.nodupKeys b.nodupKeys ?_
  intro x y
  have hx : List.dlookup x a.entries = List.dlookup x b.entries := h x
  rw [hx]

/-! ## The claims -/

/-- C1. `fillFields` equals the reference merge: for every base context, every
sequence of overrides and every key `k`, the merged mapping holds for `k` the value of
the last override whose key is `k` if there is one, otherwise the base value of `k`
if the base has `k`, otherwise nothing. Its keys are exactly the base keys and the
override keys, each present once. -/
theorem fillFields_is_reference_merge {V : Type} (l : logger V)
    (fields : List (LogField V)) (k : String) :
    (l.fillFields fields).lookup k = mergeRef l.Fields fields k ∧
      (k ∈ (l.fillFields fields).keys ↔ (k ∈ l.Fields.keys ∨ k ∈ overrideKeys fields)) ∧
      (l.fillFields fields).keys.Nodup := by
  refine ⟨lookup_fillFields l fields k, ?_, AList.keys_nodup _⟩
  rw [← AList.mem_keys, ← AList.mem_keys, ← AList.lookup_isSome, ← AList.lookup_isSome,
    lookup_fillFields, mergeRef]
  cases h : lastOverride fields k with
  | none =>
    have hk : k ∉ overrideKeys fields := (lastOverride_eq_none_iff fields k).mp h
    simp [hk]
  | some v =>
    have hk : k ∈ overrideKeys fields := by
      by_contra hn
      rw [(lastOverride_eq_none_iff fields k).mpr hn] at h
      cases h
    simp [hk]

/-- C2. `New(serviceName)` fails exactly when `serviceName` is the empty string: for
the empty string it returns no logger and the error "invalid service name", for every
other string a logger and no error. -/
theorem New_fails_exactly_on_empty_name {V : Type} [StringBox V] (serviceName : String) :
    (serviceName = "" ∧
        (New serviceName : Option (logger V) × Option String)
          = (none, some "invalid service name")) ∨
      (serviceName ≠ "" ∧
        ∃ l : logger V, New serviceName = (some l, none)) := by
  by_cases hs : serviceName = ""
  · left
    refine ⟨hs, ?_⟩
    subst hs
    rfl
  · right
    refine ⟨hs, ⟨jsonLogger, AList.insert "service" (StringBox.box serviceName) ∅, []⟩, ?_⟩
    simp only [New, ne_eq, hs, not_false_eq_true, if_true]
    rfl

/-- C3. For every non-empty `serviceName`, the logger returned by `New` has base
fields that map the key "service" to `serviceName` and hold no other key. -/
theorem New_base_context_is_service_only {V : Type} [StringBox V] (serviceName : String)
    (hs : serviceName ≠ "") :
    ∃ l : logger V, New serviceName = (some l, none) ∧
      l.Fields.lookup "service" = some (StringBox.box serviceName) ∧
      l.Fields.keys = ["service"] ∧
      ∀ k : String, k ≠ "service" → l.Fields.lookup k = none := by
  refine ⟨⟨jsonLogger, AList.insert "service" (StringBox.box serviceName) ∅, []⟩,
    ?_, ?_, ?_, ?_⟩
  · simp only [New, ne_eq, hs, not_false_eq_true, if_true]
    rfl
  · exact AList.lookup_insert _
  · rfl
  · intro k hk
    show AList.lookup k (AList.insert "service" (StringBox.box serviceName) ∅) = none
    rw [AList.lookup_insert_ne hk]
    exact AList.lookup_empty k

/-- Witness for C3: the logger of `New "orders-service"`. -/
theorem New_base_context_is_service_only_witness :
    "orders-service" ≠ "" ∧
      ∃ l : logger String, New "orders-service" = (some l, none) ∧
        l.Fields.lookup "service" = some "orders-service" ∧
        l.Fields.keys = ["service"] ∧
        ∀ k : String, k ≠ "service" → l.Fields.lookup k = none :=
  ⟨by decide, New_base_context_is_service_only "orders-service" (by decide)⟩

/-- C4. End to end, for every logger built by `New(s)`, in any state it reaches with
room on the channel, every level method `m`, message and field list: the call enqueues
exactly one request carrying the tag of `m`, the message and the fields unchanged, and
changes nothing else; when the worker receives that request it hands to logrus, at the
level of `m`, the message with the fields `fillFields(fs)`, which is the base context
`service = s` overlaid with `fs`. -/
theorem submission_reaches_logrus_with_merged_fields {V : Type} [StringBox V] (s : String)
    (l0 : logger V) (h0 : New s = (some l0, none)) (evs : List (Event V)) (l : logger V)
    (hrun : exec l0 evs = some l) (hroom : l.logChannel.length < 100) (m : Method)
    (msg : String) (fs : List (LogField V)) (g : LogrusLogger V)
    (rest : List (logRequest V)) :
    l.invoke m msg fs
        = some ⟨l.logrusLogging, l.Fields, l.logChannel ++ [⟨m.tag, msg, fs⟩]⟩ ∧
      (logger.processLogQueueIter ⟨g, l.Fields, ⟨m.tag, msg, fs⟩ :: rest⟩).map
          (fun a => (a.logrusLogging.calls, a.logChannel))
        = some (g.calls ++ [⟨m.level, l.fillFields fs, msg⟩], rest) ∧
      ∀ k : String, (l.fillFields fs).lookup k
        = mergeRef (AList.singleton "service" (StringBox.box s)) fs k := by
  have hF : l.Fields = l0.Fields := exec_Fields evs l0 l hrun
  obtain ⟨_, hl0⟩ := New_eq_some s l0 h0
  refine ⟨?_, ?_, ?_⟩
  · rw [invoke_eq_send]
    unfold logger.sendToChannel
    rw [if_pos (by simpa [chanCap] using hroom)]
  · have hreq : (⟨m.tag, msg, fs⟩ : logRequest V)
        = Submission.request ⟨m, msg, fs⟩ := rfl
    simp only [logger.processLogQueueIter, Option.map_some']
    rw [hreq, handle_request]
    have hff : (⟨g, l.Fields, rest⟩ : logger V).fillFields fs = l.fillFields fs :=
      fillFields_congr _ _ rfl fs
    simp only [hff]
    by_cases hm : m = Method.Fatal
    · simp [hm, LogrusLogger.Log, LogrusLogger.Exit]
    · simp [hm, LogrusLogger.Log]
  · intro k
    rw [lookup_fillFields, hF, hl0]
    rfl

/-- Witness for C4: `New("orders-service")`, then `Info("order placed", {order_id:
"42"})`; the call handed to logrus is at level info, with the message and the fields
`service = orders-service`, `order_id = 42`. -/
theorem submission_reaches_logrus_with_merged_fields_witness :
    (New "orders-service" = (some ordersLogger, none) ∧
      exec ordersLogger [] = some ordersLogger ∧
      ordersLogger.logChannel.length < 100) ∧
    (ordersLogger.invoke Method.Info "order placed" [⟨"order_id", "42"⟩]
        = some ⟨ordersLogger.logrusLogging, ordersLogger.Fields,
            ordersLogger.logChannel ++ [⟨"info", "order placed", [⟨"order_id", "42"⟩]⟩]⟩ ∧
      (logger.processLogQueueIter ⟨LogrusLogger.New, ordersLogger.Fields,
          [⟨"info", "order placed", [⟨"order_id", "42"⟩]⟩]⟩).map
          (fun a => (a.logrusLogging.calls, a.logChannel))
        = some ([] ++ [⟨Level.InfoLevel,
            ordersLogger.fillFields [⟨"order_id", "42"⟩], "order placed"⟩], []) ∧
      ∀ k : String, (ordersLogger.fillFields [⟨"order_id", "42"⟩]).lookup k
        = mergeRef (AList.singleton "service" "orders-service") [⟨"order_id", "42"⟩] k) ∧
    (ordersLogger.fillFields [⟨"order_id", "42"⟩]).lookup "service"
        = some "orders-service" ∧
    (ordersLogger.fillFields [⟨"order_id", "42"⟩]).lookup "order_id" = some "42" ∧
    (ordersLogger.fillFields [⟨"order_id", "42"⟩]).keys = ["order_id", "service"] :=
  ⟨⟨rfl, rfl, by decide⟩,
    submission_reaches_logrus_with_merged_fields "orders-service" ordersLogger rfl []
      ordersLogger rfl (by decide) Method.Info "order placed" [⟨"order_id", "42"⟩]
      LogrusLogger.New [],
    by decide, by decide, by decide⟩

/-- C5 (counterexample). A producer submits `Fatal("a")` and then `Error("b")` on the
logger of `New("svc")`. Both requests are enqueued; the worker hands the `Fatal` one to
logrus, logrus exits the process with code 1, and the `Error` one stays on the channel
and is never handed over: the dispatched sequence is not the submitted sequence. -/
theorem fifo_loses_records_behind_fatal :
    New "svc" = (some svcLogger, none) ∧
      (exec svcLogger fatalThenError).map queued = some ["a", "b"] ∧
      (exec svcLogger fatalThenError).map (fun l => dispatched l.processLogQueue)
        = some [(Level.FatalLevel, "a")] ∧
      (exec svcLogger fatalThenError).map (fun l => queued l.processLogQueue)
        = some ["b"] ∧
      (exec svcLogger fatalThenError).map
          (fun l => l.processLogQueue.logrusLogging.exited) = some (some 1) ∧
      (exec svcLogger fatalThenError).map
          (fun l => (step l.processLogQueue Event.work).isSome) = some false ∧
      (exec svcLogger fatalThenError).map (fun l => dispatched l.processLogQueue)
        ≠ some ((submissions fatalThenError).map (fun c => (c.method.level, c.msg))) :=
  ⟨rfl, by decide, by decide, by decide, by decide, by decide, by decide⟩

/-- C5 (amended). For every schedule of submissions and worker iterations on a logger
built by `New`, the calls handed to logrus are at any moment a prefix of the submitted
sequence cut after its first `Fatal` record, in submission order; the worker loop,
run for one iteration per queued request, stops (the process has exited or the channel
is empty), and the calls are then that whole cut sequence, each record once; and when
no `Fatal` record is submitted before the last one, they are the whole submitted
sequence. -/
theorem dispatch_order_is_submission_order_up_to_fatal {V : Type} [StringBox V]
    (s : String) (l0 : logger V) (h0 : New s = (some l0, none)) (evs : List (Event V))
    (l : logger V) (hrun : exec l0 evs = some l) :
    (∃ n, l.logrusLogging.calls
        = ((cutAfterFatal (submissions evs)).take n).map (record l0)) ∧
      (l.processLogQueue.logrusLogging.exited.isSome = true ∨
        l.processLogQueue.logChannel = []) ∧
      l.processLogQueue.logrusLogging.calls
        = (cutAfterFatal (submissions evs)).map (record l0) ∧
      ((∀ c ∈ (submissions evs).dropLast, c.method ≠ Method.Fatal) →
        l.processLogQueue.logrusLogging.calls = (submissions evs).map (record l0)) := by
  have hinv : RunInv l0 l (submissions evs) := by
    have h := RunInv_exec l0 evs l0 l [] (RunInv_New s l0 h0) hrun
    simpa using h
  have hfin := RunInv_processLogQueue l0 l (submissions evs) hinv
  have hstop := RunInv_stopped l0 l.processLogQueue (submissions evs) hfin.1 hfin.2
  refine ⟨RunInv_initial_segment l0 l (submissions evs) hinv, hfin.2, hstop.1, ?_⟩
  intro hno
  rw [hstop.1, cutAfterFatal_of_no_fatal_before_last (submissions evs) hno]

/-- Witness for C5 (amended): `Info`, `Error`, then `Fatal` on the logger of
`New("svc")`; the three records are handed over in this order. -/
theorem dispatch_order_is_submission_order_up_to_fatal_witness :
    (New "svc" = (some svcLogger, none) ∧
      exec svcLogger infoErrorFatal = some afterInfoErrorFatal ∧
      ∀ c ∈ (submissions infoErrorFatal).dropLast, c.method ≠ Method.Fatal) ∧
    ((∃ n, afterInfoErrorFatal.logrusLogging.calls
        = ((cutAfterFatal (submissions infoErrorFatal)).take n).map (record svcLogger)) ∧
      (afterInfoErrorFatal.processLogQueue.logrusLogging.exited.isSome = true ∨
        afterInfoErrorFatal.processLogQueue.logChannel = []) ∧
      afterInfoErrorFatal.processLogQueue.logrusLogging.calls
        = (cutAfterFatal (submissions infoErrorFatal)).map (record svcLogger) ∧
      afterInfoErrorFatal.processLogQueue.logrusLogging.calls
        = (submissions infoErrorFatal).map (record svcLogger)) ∧
    dispatched afterInfoErrorFatal.processLogQueue
      = [(Level.InfoLevel, "before"), (Level.ErrorLevel, "mid"),
          (Level.FatalLevel, "boom")] :=
  ⟨⟨rfl, rfl, by decide⟩,
    ⟨(dispatch_order_is_submission_order_up_to_fatal "svc" svcLogger rfl infoErrorFatal
        afterInfoErrorFatal rfl).1,
      (dispatch_order_is_submission_order_up_to_fatal "svc" svcLogger rfl infoErrorFatal
        afterInfoErrorFatal rfl).2.1,
      (dispatch_order_is_submission_order_up_to_fatal "svc" svcLogger rfl infoErrorFatal
        afterInfoErrorFatal rfl).2.2.1,
      (dispatch_order_is_submission_order_up_to_fatal "svc" svcLogger rfl infoErrorFatal
        afterInfoErrorFatal rfl).2.2.2 (by decide)⟩,
    by decide⟩

/-- C6. The base context is never written: no schedule of submissions and worker
iterations, no single level method call, no worker iteration and no run of the worker
loop changes the base fields of the logger; and the body of `fillFields`, run on the
store of map objects with any field list (colliding keys included), returns a
reference that did not exist before, so not the base, and leaves every map that
existed, the base among them, as it was. -/
theorem base_context_is_never_written {V : Type} (l l1 : logger V) (evs : List (Event V))
    (hrun : exec l evs = some l1) (m : Method) (msg : String) (fs : List (LogField V))
    (req : logRequest V) (σ : Store V) (base r : Nat) (hb : base < σ.maps.length)
    (hr : r < σ.maps.length) :
    l1.Fields = l.Fields ∧
      l1.processLogQueue.Fields = l.Fields ∧
      (l.invoke m msg fs).map (fun a => a.Fields)
        = (l.invoke m msg fs).map (fun _ => l.Fields) ∧
      l.processLogQueueIter.map (fun a => a.Fields)
        = l.processLogQueueIter.map (fun _ => l.Fields) ∧
      (l.handle req).Fields = l.Fields ∧
      (fillFieldsIn σ base fs).2 = σ.maps.length ∧
      (fillFieldsIn σ base fs).2 ≠ base ∧
      (fillFieldsIn σ base fs).1.read base = σ.read base ∧
      (fillFieldsIn σ base fs).1.read r = σ.read r := by
  have hspec := fillFieldsIn_spec σ base hb fs
  have hF : l1.Fields = l.Fields := exec_Fields evs l l1 hrun
  refine ⟨hF, ?_, ?_, ?_, handle_Fields l req, hspec.1, ?_, hspec.2.2.1 base hb,
    hspec.2.2.1 r hr⟩
  · unfold logger.processLogQueue
    rw [iterate_Fields, hF]
  · cases h : l.invoke m msg fs with
    | none => rfl
    | some a =>
      rw [invoke_eq_send] at h
      simp [sendToChannel_Fields l a _ _ _ h]
  · cases h : l.processLogQueueIter with
    | none => rfl
    | some a => simp [(processLogQueueIter_eq_some l a h).1]
  · rw [hspec.1]
    exact (Nat.ne_of_lt hb).symm

/-- Witness for C6: `fillFields` with the field `service = other` on the base of
`New("svc")`; the base map still holds what it held, the new map holds the override. -/
theorem base_context_is_never_written_witness :
    (exec svcLogger infoErrorFatal = some afterInfoErrorFatal ∧
      0 < (Store.mk [svcLogger.Fields]).maps.length) ∧
    (fillFieldsIn (Store.mk [svcLogger.Fields]) 0 [⟨"service", "other"⟩]).1.read 0
      = svcLogger.Fields ∧
    ((fillFieldsIn (Store.mk [svcLogger.Fields]) 0 [⟨"service", "other"⟩]).1.read 1).lookup
      "service" = some "other" :=
  ⟨⟨rfl, by decide⟩,
    (base_context_is_never_written svcLogger afterInfoErrorFatal infoErrorFatal rfl
      Method.Info "m" [⟨"service", "other"⟩] ⟨"info", "m", []⟩
      (Store.mk [svcLogger.Fields]) 0 0 (by decide) (by decide)).2.2.2.2.2.2.2.1,
    by decide⟩

/-- C7. Bounded channel of capacity 100 with blocking sends: a send made while the
channel holds fewer than 100 requests completes at once, without a worker iteration,
and puts the request behind the others; a send made while it holds 100 requests does
not complete, and completes once the worker has received one request; and in every
schedule on a logger built by `New` the channel never holds more than 100 requests
and every submitted request is either handed to logrus or still on the channel, in
submission order. -/
theorem channel_is_bounded_and_blocks_when_full {V : Type} [StringBox V] (a : logger V)
    (level msg : String) (fs : List (LogField V)) (m : Method) (s : String)
    (l0 : logger V) (evs : List (Event V)) (l : logger V) (h0 : New s = (some l0, none))
    (hrun : exec l0 evs = some l) :
    (a.logChannel.length < 100 →
        a.sendToChannel level msg fs
          = some ⟨a.logrusLogging, a.Fields, a.logChannel ++ [⟨level, msg, fs⟩]⟩) ∧
      (a.logChannel.length = 100 →
        a.sendToChannel level msg fs = none ∧ a.invoke m msg fs = none ∧
          ∃ a1, a.processLogQueueIter = some a1 ∧ a1.logChannel = a.logChannel.tail ∧
            a1.sendToChannel level msg fs
              = some ⟨a1.logrusLogging, a1.Fields, a1.logChannel ++ [⟨level, msg, fs⟩]⟩) ∧
      l.logChannel.length ≤ 100 ∧
      ∃ done pending : List (Submission V),
        submissions evs = done ++ pending ∧
        l.logChannel = pending.map Submission.request ∧
        l.logrusLogging.calls = done.map (record l0) := by
  have hsend : ∀ b : logger V, b.logChannel.length < 100 →
      b.sendToChannel level msg fs
        = some ⟨b.logrusLogging, b.Fields, b.logChannel ++ [⟨level, msg, fs⟩]⟩ := by
    intro b hb
    unfold logger.sendToChannel
    rw [if_pos (by simpa [chanCap] using hb)]
  have hinv : RunInv l0 l (submissions evs) := by
    have h := RunInv_exec l0 evs l0 l [] (RunInv_New s l0 h0) hrun
    simpa using h
  refine ⟨hsend a, ?_, ?_, ?_⟩
  · intro hfull
    refine ⟨?_, ?_, ?_⟩
    · unfold logger.sendToChannel
      rw [if_neg (by simp [chanCap, hfull])]
    · rw [invoke_eq_send]
      unfold logger.sendToChannel
      rw [if_neg (by simp [chanCap, hfull])]
    · cases hp : a.processLogQueueIter with
      | none =>
        have hnil := processLogQueueIter_eq_none a hp
        rw [hnil] at hfull
        simp at hfull
      | some a1 =>
        have h1 := processLogQueueIter_eq_some a a1 hp
        exact ⟨a1, rfl, h1.2.2, hsend a1 (by omega)⟩
  · have h := hinv.2.1
    simpa [chanCap] using h
  · obtain ⟨_, _, done, pending, h1, h2, h3, _⟩ := hinv
    exact ⟨done, pending, h1, h2, h3⟩

/-- Witness for C7: a send on a channel with two requests completes, a send on a channel
with 100 requests does not. -/
theorem channel_is_bounded_and_blocks_when_full_witness :
    (New "svc" = (some svcLogger, none) ∧
      exec svcLogger infoErrorFatal = some afterInfoErrorFatal ∧
      afterInfoErrorFatal.logChannel.length < 100 ∧
      fullLogger.logChannel.length = 100) ∧
    afterInfoErrorFatal.sendToChannel "info" "x" []
      = some ⟨afterInfoErrorFatal.logrusLogging, afterInfoErrorFatal.Fields,
          afterInfoErrorFatal.logChannel ++ [⟨"info", "x", []⟩]⟩ ∧
    fullLogger.sendToChannel "info" "x" [] = none ∧
    afterInfoErrorFatal.logChannel.length ≤ 100 :=
  ⟨⟨rfl, rfl, by decide, by decide⟩,
    (channel_is_bounded_and_blocks_when_full afterInfoErrorFatal "info" "x" []
      Method.Info "svc" svcLogger infoErrorFatal afterInfoErrorFatal rfl rfl).1 (by decide),
    ((channel_is_bounded_and_blocks_when_full fullLogger "info" "x" []
      Method.Info "svc" svcLogger infoErrorFatal afterInfoErrorFatal rfl rfl).2.1
        (by decide)).1,
    (channel_is_bounded_and_blocks_when_full fullLogger "info" "x" []
      Method.Info "svc" svcLogger infoErrorFatal afterInfoErrorFatal rfl rfl).2.2.1⟩

/-- C8 (counterexample). On the logger of `New("svc")` a producer submits
`Info("before")`, `Fatal("boom")` and `Info("after")`. The worker hands "before" and
"boom" to logrus; handling "boom" exits the process with code 1; "after" stays on the
channel, no further worker iteration happens, and it is never handed over. -/
theorem fatal_stops_the_worker :
    New "svc" = (some svcLogger, none) ∧
      exec svcLogger infoFatalInfo = some afterInfoFatalInfo ∧
      dispatched afterInfoFatalInfo.processLogQueue
        = [(Level.InfoLevel, "before"), (Level.FatalLevel, "boom")] ∧
      afterInfoFatalInfo.processLogQueue.logrusLogging.exited = some 1 ∧
      queued afterInfoFatalInfo.processLogQueue = ["after"] ∧
      step afterInfoFatalInfo.processLogQueue Event.work = none ∧
      (Level.InfoLevel, "after") ∉ dispatched afterInfoFatalInfo.processLogQueue :=
  ⟨rfl, rfl, by decide, by decide, by decide, rfl, by decide⟩

/-- C8 (amended). The `Fatal` method is treated like the other level methods when it
is called: it only puts a request tagged "fatal" on the channel, and hands nothing to
logrus and exits nothing itself. When the submissions of a schedule on a logger built
by `New` hold a first `Fatal` record, the worker, run until it stops, has handed to
logrus every record submitted before it and then the `Fatal` record itself, each at
its own level; logrus has then exited the process with code 1, no further event can
happen, and the records submitted after the `Fatal` one are not handed over. -/
theorem fatal_is_enqueued_like_the_others_and_exits_when_dispatched {V : Type} [StringBox V]
    (a : logger V) (msg : String) (fs : List (LogField V))
    (hroom : a.logChannel.length < 100) (s : String) (l0 : logger V)
    (h0 : New s = (some l0, none)) (evs : List (Event V)) (l : logger V)
    (hrun : exec l0 evs = some l) (pre post : List (Submission V)) (c : Submission V)
    (hsub : submissions evs = pre ++ c :: post) (hc : c.method = Method.Fatal)
    (hpre : ∀ x ∈ pre, x.method ≠ Method.Fatal) (e : Event V) :
    a.Fatal msg fs
        = some ⟨a.logrusLogging, a.Fields, a.logChannel ++ [⟨"fatal", msg, fs⟩]⟩ ∧
      l.processLogQueue.logrusLogging.calls = (pre ++ [c]).map (record l0) ∧
      l.processLogQueue.logrusLogging.exited = some 1 ∧
      step l.processLogQueue e = none := by
  have hinv : RunInv l0 l (submissions evs) := by
    have h := RunInv_exec l0 evs l0 l [] (RunInv_New s l0 h0) hrun
    simpa using h
  have hfin := RunInv_processLogQueue l0 l (submissions evs) hinv
  have hstop := RunInv_stopped l0 l.processLogQueue (submissions evs) hfin.1 hfin.2
  have hex : l.processLogQueue.logrusLogging.exited = some 1 := by
    apply hstop.2.2
    refine ⟨c, ?_, hc⟩
    rw [hsub]
    simp
  refine ⟨?_, ?_, hex, ?_⟩
  · unfold logger.Fatal logger.sendToChannel
    rw [if_pos (by simpa [chanCap] using hroom)]
  · rw [hstop.1, hsub, cutAfterFatal_at_fatal pre c post hpre hc]
  · unfold step
    rw [hex]
    rfl

/-- Witness for C8 (amended): `Info("before")`, `Fatal("boom")`, `Info("after")` on the
logger of `New("svc")`. -/
theorem fatal_is_enqueued_like_the_others_and_exits_when_dispatched_witness :
    (svcLogger.logChannel.length < 100 ∧
      New "svc" = (some svcLogger, none) ∧
      exec svcLogger infoFatalInfo = some afterInfoFatalInfo ∧
      submissions infoFatalInfo
        = ([⟨Method.Info, "before", []⟩] : List (Submission String)) ++
            ⟨Method.Fatal, "boom", []⟩ :: [⟨Method.Info, "after", []⟩] ∧
      (⟨Method.Fatal, "boom", []⟩ : Submission String).method = Method.Fatal ∧
      ∀ x ∈ [(⟨Method.Info, "before", []⟩ : Submission String)],
        x.method ≠ Method.Fatal) ∧
    (svcLogger.Fatal "boom" []
        = some ⟨svcLogger.logrusLogging, svcLogger.Fields,
            svcLogger.logChannel ++ [⟨"fatal", "boom", []⟩]⟩ ∧
      afterInfoFatalInfo.processLogQueue.logrusLogging.calls
        = ([⟨Method.Info, "before", []⟩, ⟨Method.Fatal, "boom", []⟩] :
            List (Submission String)).map (record svcLogger) ∧
      afterInfoFatalInfo.processLogQueue.logrusLogging.exited = some 1 ∧
      step afterInfoFatalInfo.processLogQueue Event.work = none) :=
  ⟨⟨by decide, rfl, rfl, rfl, rfl, by decide⟩,
    fatal_is_enqueued_like_the_others_and_exits_when_dispatched svcLogger "boom" []
      (by decide) "svc" svcLogger rfl infoFatalInfo afterInfoFatalInfo rfl
      [⟨Method.Info, "before", []⟩] [⟨Method.Info, "after", []⟩]
      ⟨Method.Fatal, "boom", []⟩ rfl rfl (by decide) Event.work⟩

/-- C9 (counterexample). On the logger of `New("svc")` the first submission is
`Info("m", {service: "other"})`: the first record handed to logrus carries
`service = "other"`, not `service = "svc"`. -/
theorem first_record_service_can_be_overridden :
    New "svc" = (some svcLogger, none) ∧
      ((svcLogger.Info "m" [⟨"service", "other"⟩]).bind logger.processLogQueueIter).map
          serviceOf = some [some "other"] ∧
      (some [some "other"] : Option (List (Option String))) ≠ some [some "svc"] :=
  ⟨rfl, by decide, by decide⟩

/-- C9 (amended). For every non-empty identity `s` and every first submission made on
the logger returned by `New(s)` (any level, any message, any field list), the first
record handed to logrus carries under the key "service" the value of the last field
of the list whose key is "service" if there is one, and `s` otherwise; so it carries
`service = s` for every field list without a field of key "service". -/
theorem first_record_carries_service_unless_overridden {V : Type} [StringBox V] (s : String)
    (l0 : logger V) (h0 : New s = (some l0, none)) (m : Method) (msg : String)
    (fs : List (LogField V)) :
    ((l0.invoke m msg fs).bind logger.processLogQueueIter).map serviceOf
        = some [some ((lastOverride fs "service").getD (StringBox.box s))] ∧
      ("service" ∉ overrideKeys fs →
        ((l0.invoke m msg fs).bind logger.processLogQueueIter).map serviceOf
          = some [some (StringBox.box s)]) := by
  obtain ⟨_, hl0⟩ := New_eq_some s l0 h0
  have hgen : ((l0.invoke m msg fs).bind logger.processLogQueueIter).map serviceOf
      = some [some ((lastOverride fs "service").getD (StringBox.box s))] := by
    subst hl0
    rw [invoke_eq_send]
    have hreq : (⟨m.tag, msg, fs⟩ : logRequest V) = Submission.request ⟨m, msg, fs⟩ := rfl
    have hlook : ((⟨jsonLogger, AList.insert "service" (StringBox.box s) ∅, []⟩ :
        logger V).fillFields fs).lookup "service"
          = some ((lastOverride fs "service").getD (StringBox.box s)) := by
      rw [lookup_fillFields, mergeRef]
      cases h : lastOverride fs "service" with
      | some v => rfl
      | none => exact AList.lookup_insert _
    have hsend : (logger.sendToChannel (⟨jsonLogger,
        AList.insert "service" (StringBox.box s) ∅, []⟩ : logger V) m.tag msg fs)
          = some ⟨jsonLogger, AList.insert "service" (StringBox.box s) ∅,
              [⟨m.tag, msg, fs⟩]⟩ := rfl
    rw [hsend, Option.some_bind]
    have hiter : logger.processLogQueueIter (⟨jsonLogger,
        AList.insert "service" (StringBox.box s) ∅, [⟨m.tag, msg, fs⟩]⟩ : logger V)
          = some (logger.handle ⟨jsonLogger,
              AList.insert "service" (StringBox.box s) ∅, []⟩ ⟨m.tag, msg, fs⟩) := rfl
    rw [hiter, Option.map_some', hreq, serviceOf_handle]
    show some ([] ++ [_]) = _
    rw [hlook]
    rfl
  refine ⟨hgen, ?_⟩
  intro hfs
  have hnone : lastOverride fs "service" = none :=
    (lastOverride_eq_none_iff fs "service").mpr hfs
  rw [hgen, hnone]
  rfl

/-- Witness for C9 (amended): `New("orders-service")`, then `Info("order placed",
{order_id: "42"})`. -/
theorem first_record_carries_service_unless_overridden_witness :
    (New "orders-service" = (some ordersLogger, none) ∧
      "service" ∉ overrideKeys [(⟨"order_id", "42"⟩ : LogField String)]) ∧
    ((ordersLogger.invoke Method.Info "order placed" [⟨"order_id", "42"⟩]).bind
        logger.processLogQueueIter).map serviceOf = some [some "orders-service"] :=
  ⟨⟨rfl, by decide⟩,
    (first_record_carries_service_unless_overridden "orders-service" ordersLogger rfl
      Method.Info "order placed" [⟨"order_id", "42"⟩]).2 (by decide)⟩

/-- C10. The merge composes over concatenation and has the empty list as identity:
`fillFields` over base `b` with overrides `xs ++ ys` is the same mapping as
`fillFields` over base `fillFields(b, xs)` with overrides `ys`; `fillFields` with no
override is the same mapping as `b` and holds the same entries; and merging the same
overrides a second time gives the same mapping as merging them once. -/
theorem fillFields_composes_over_append {V : Type} (l : logger V)
    (xs ys : List (LogField V)) :
    SameMapping (l.fillFields (xs ++ ys))
        (logger.fillFields ⟨l.logrusLogging, l.fillFields xs, l.logChannel⟩ ys) ∧
      (l.fillFields (xs ++ ys)).entries.Perm
        (logger.fillFields ⟨l.logrusLogging, l.fillFields xs, l.logChannel⟩ ys).entries ∧
      SameMapping (l.fillFields []) l.Fields ∧
      (l.fillFields []).entries.Perm l.Fields.entries ∧
      SameMapping (logger.fillFields ⟨l.logrusLogging, l.fillFields xs, l.logChannel⟩ xs)
        (l.fillFields xs) ∧
      (logger.fillFields ⟨l.logrusLogging, l.fillFields xs, l.logChannel⟩ xs).entries.Perm
        (l.fillFields xs).entries := by
  have h1 : SameMapping (l.fillFields (xs ++ ys))
      (logger.fillFields ⟨l.logrusLogging, l.fillFields xs, l.logChannel⟩ ys) := by
    intro k
    rw [lookup_fillFields, lookup_fillFields]
    simp only [mergeRef]
    rw [lookup_fillFields, lastOverride_append, mergeRef]
    cases h : lastOverride ys k with
    | some v => rfl
    | none => rfl
  have h2 : SameMapping (l.fillFields []) l.Fields := by
    intro k
    rw [lookup_fillFields, mergeRef, lastOverride_nil]
  have h3 : SameMapping
      (logger.fillFields ⟨l.logrusLogging, l.fillFields xs, l.logChannel⟩ xs)
      (l.fillFields xs) := by
    intro k
    rw [lookup_fillFields]
    simp only [mergeRef]
    rw [lookup_fillFields, mergeRef]
    cases h : lastOverride xs k with
    | some v => rfl
    | none => rfl
  exact ⟨h1, h1.perm, h2, h2.perm, h3, h3.perm⟩

end Logrusx
